import Mathlib

/-!
Shallow embedding of the quantitative core of `src/app.py` (a commodities
VaR / options dashboard).  Pandas dataframes of (timestamp, price) rows
become lists of pairs over ℝ, numpy/pandas operations become the
corresponding list operations, and the standard normal CDF `norm().cdf`
and its inverse `norm().ppf` are abstract function parameters, since none
of the verified properties depends on their internals.  Randomness for the
Monte Carlo estimator is injected: the drawn sample matrix is an input.
-/

namespace App

noncomputable section

/-- Error taxonomy of the specification (§7).  The source raises none of
these errors anywhere: the `*_run` wrappers below record, as `Except`
values, the fact that every code path of the corresponding Python function
returns normally. -/
inductive RiskError where
  | InsufficientDataError
  | InvalidDataError
  | InvalidParameterError
  | DegenerateSampleError
  | FitConvergenceError
  deriving DecidableEq

/-- Embedding of `get_log_returns` (src/app.py lines 20-37).  A dataframe is
a list of (timestamp, price) rows.  `shift(1)` followed by the elementwise
`np.log(df / prev)` leaves an undefined (NaN) entry at row 0, which the
`[1:]` slice drops; row `j` of the sliced array is therefore
`log (price (j+1) / price j)`, which `zipWith` applied to `tail prices` and
`prices` produces directly.  The result is reindexed by `index[:-1]`, i.e.
zipped with `dropLast` of the timestamp column. -/
def get_log_returns (df : List (ℕ × ℝ)) : List (ℕ × ℝ) :=
  let prices := df.map Prod.snd
  let log_returns := List.zipWith (fun a b => Real.log (a / b)) prices.tail prices
  List.zip ((df.map Prod.fst).dropLast) log_returns

/-- The values column of the log-return dataframe (`['Log Returns']`). -/
def log_return_values (df : List (ℕ × ℝ)) : List ℝ :=
  (get_log_returns df).map Prod.snd

/-- Run wrapper for `get_log_returns`: the source performs no input
validation and contains no raise statement, so every run returns normally
with the computed series. -/
def get_log_returns_run (df : List (ℕ × ℝ)) : Except RiskError (List (ℕ × ℝ)) :=
  Except.ok (get_log_returns df)

/-- Embedding of a pandas column mean: sum divided by length. -/
def mean (xs : List ℝ) : ℝ := xs.sum / xs.length

/-- Embedding of `.rolling(w).sum().dropna()` (src/app.py line 46): at row
`j` the window is the `w` entries ending at `j`, defined (non-NaN) exactly
when `w ≤ j + 1`; `dropna` removes the undefined leading rows. -/
def rolling_sum (w : ℕ) (xs : List ℝ) : List ℝ :=
  (List.range xs.length).filterMap (fun j =>
    if w ≤ j + 1 then some (((xs.take (j + 1)).drop (j + 1 - w)).sum) else none)

/-- Spec formulation of RollingSumSeries (§3): the sequence of trailing
window-`w` sums, one for each start position `i`, of length
`len − w + 1` (Nat subtraction: `len + 1 − w`). -/
def spec_rolling_sums (w : ℕ) (xs : List ℝ) : List ℝ :=
  (List.range (xs.length + 1 - w)).map (fun i => ((xs.drop i).take w).sum)

/-- Embedding of `np.quantile(xs, p)` with the default linear interpolation:
with the sample sorted ascending, `h = p·(n−1)`, `i = ⌊h⌋`, the quantile is
`s i + (h − i)·(s (i+1) − s i)` (the upper index falls back to `s i` when it
is out of range, which only happens when the fractional part is zero). -/
def np_quantile (xs : List ℝ) (p : ℝ) : ℝ :=
  let s := xs.insertionSort (· ≤ ·)
  let h := p * ((s.length : ℝ) - 1)
  let i := ⌊h⌋₊
  let a := s.getD i 0
  let b := s.getD (i + 1) a
  a + (h - (i : ℝ)) * (b - a)

/-- Spec formulation of the `k`-th order statistic of a sorted sample,
clamped to the sample (§4.2 "linear interpolation between order
statistics"). -/
def order_statistic (s : List ℝ) (k : ℕ) : ℝ :=
  s.getD (min k (s.length - 1)) 0

/-- Spec formulation of the type-7 empirical `p`-quantile (§4.2): the convex
combination of the order statistics at `⌊h⌋` and `⌊h⌋ + 1` with weight the
fractional part of `h = p·(n−1)`. -/
def quantile_type7 (xs : List ℝ) (p : ℝ) : ℝ :=
  let s := xs.insertionSort (· ≤ ·)
  let h := p * ((s.length : ℝ) - 1)
  (1 - (h - (⌊h⌋₊ : ℝ))) * order_statistic s ⌊h⌋₊
    + (h - (⌊h⌋₊ : ℝ)) * order_statistic s (⌊h⌋₊ + 1)

/-- Embedding of `get_var_cvar` (src/app.py lines 40-54): log returns of the
price column, rolling `w`-sums with NaNs dropped, `var` the `np.quantile` at
`p_value`, `cvar` the mean of the rolling sums at or below `var`. -/
def get_var_cvar (df : List (ℕ × ℝ)) (rolling_window : ℕ) (p_value : ℝ) : ℝ × ℝ :=
  let sum_log_returns := rolling_sum rolling_window (log_return_values df)
  let log_value_at_risk := np_quantile sum_log_returns p_value
  let log_expected_shortfall :=
    mean (sum_log_returns.filter (fun x => decide (x ≤ log_value_at_risk)))
  (log_value_at_risk, log_expected_shortfall)

/-- Embedding of `call_black_scholes` (src/app.py lines 57-82), with the
standard normal CDF `norm().cdf` as the abstract parameter `Φ`. -/
def call_black_scholes (Φ : ℝ → ℝ) (S_0 K log_vol rate delta_t : ℝ) : ℝ :=
  let scale := 1 / (log_vol * Real.sqrt delta_t)
  let d_up := scale * (Real.log (S_0 / K) + delta_t * (rate + 0.5 * log_vol ^ 2))
  let d_down := d_up - log_vol * Real.sqrt delta_t
  let discount_rate := Real.exp (-rate * delta_t)
  S_0 * Φ d_up - K * discount_rate * Φ d_down

/-- Run wrapper for `call_black_scholes`: the source checks no parameter and
contains no raise statement, so every run returns normally. -/
def call_black_scholes_run (Φ : ℝ → ℝ) (S_0 K log_vol rate delta_t : ℝ) :
    Except RiskError ℝ :=
  Except.ok (call_black_scholes Φ S_0 K log_vol rate delta_t)

/-- Embedding of `put_black_scholes` (src/app.py lines 84-89): the call value
minus spot plus the discounted strike. -/
def put_black_scholes (Φ : ℝ → ℝ) (S_0 K log_vol rate delta_t : ℝ) : ℝ :=
  call_black_scholes Φ S_0 K log_vol rate delta_t - S_0 + K * Real.exp (-rate * delta_t)

/-- Spec formulation of the Black–Scholes call price (§4.4), written from
the spec's displayed formulas for d1, d2 and the call value. -/
def bs_call_spec (Φ : ℝ → ℝ) (S0 K σ r T : ℝ) : ℝ :=
  let d1 := (Real.log (S0 / K) + (r + 0.5 * σ ^ 2) * T) / (σ * Real.sqrt T)
  let d2 := d1 - σ * Real.sqrt T
  S0 * Φ d1 - K * Real.exp (-r * T) * Φ d2

/-- Embedding of `MonteCarloVar` (src/app.py lines 92-112) with the
randomness injected: `normal_samples` is the drawn simulations-by-periods
matrix (each row one simulated path of per-period increments).  `axis=1`
summation aggregates each row; `var` and `cvar` are then computed exactly as
in the historical estimator. -/
def MonteCarloVar (normal_samples : List (List ℝ)) (p_value : ℝ) :
    List ℝ × ℝ × ℝ :=
  let sums := normal_samples.map List.sum
  let var_p := np_quantile sums p_value
  let cvar_p := mean (sums.filter (fun x => decide (x ≤ var_p)))
  (sums, var_p, cvar_p)

/-- Embedding of the GARCH input scaling (src/app.py line 327): the
rolling-sum log-returns are multiplied elementwise by the literal
constant 1000. -/
def garch_data (sum_log_returns : List ℝ) : List ℝ :=
  sum_log_returns.map (fun x => 1000 * x)

/-- Embedding of the forecasted-VaR translation (src/app.py lines 489-491):
the forecasted volatility is divided by the literal 1000, multiplied by
`norm().ppf(0.05)` (with the quantile function as abstract parameter
`ppf`), and exponentiated. -/
def forecasted_var (ppf : ℝ → ℝ) (forecast_vol : ℝ) : ℝ :=
  Real.exp (forecast_vol / 1000 * ppf 0.05)

/-- Embedding of the walk-forward expanding-window loop (src/app.py lines
434-448): starting from the training data, each test row is appended in
order by `pd.concat([conditional, testing_data.iloc[i:i+1]])`. -/
def walk_forward_expand (train test : List ℝ) : List ℝ :=
  test.foldl (fun acc x => acc ++ [x]) train

/-- Safety predicate for a quantile `q` over a sample `xs` (used to state
claim C10): some minimal element of the sample is at most `q`, some maximal
element is at least `q`, and the set of sample values at most `q` — the set
the CVaR is averaged over — is nonempty. -/
def quantile_safety (xs : List ℝ) (q : ℝ) : Prop :=
  (∃ m ∈ xs, (∀ z ∈ xs, m ≤ z) ∧ m ≤ q) ∧
  (∃ M ∈ xs, (∀ z ∈ xs, z ≤ M) ∧ q ≤ M) ∧
  xs.filter (fun x => decide (x ≤ q)) ≠ []

/-- The concrete price series of the spec's scenario (§8): prices
[100, 105, 98, 102, 110] on consecutive days. -/
def df0 : List (ℕ × ℝ) := [(0, 100), (1, 105), (2, 98), (3, 102), (4, 110)]

/-- A minimal two-point series used as a witness input. -/
def df1 : List (ℕ × ℝ) := [(0, 1), (1, 1)]

end

/- ------------------------------------------------------------------ -/
/- Helper lemmas                                                       -/
/- ------------------------------------------------------------------ -/

theorem walk_forward_expand_eq_append (train test : List ℝ) :
    walk_forward_expand train test = train ++ test := by
  induction test generalizing train with
  | nil => simp [walk_forward_expand]
  | cons x xs ih =>
      simp only [walk_forward_expand, List.foldl_cons] at *
      rw [ih (train ++ [x])]
      simp

theorem get_log_returns_length (df : List (ℕ × ℝ)) :
    (get_log_returns df).length = df.length - 1 := by
  simp only [get_log_returns, List.length_zip, List.length_zipWith,
    List.length_dropLast, List.length_tail, List.length_map]
  omega

theorem floor_interp_bounds {n : ℕ} (hn : 0 < n) {p : ℝ} (hp0 : 0 ≤ p)
    (hp1 : p ≤ 1) :
    0 ≤ p * ((n : ℝ) - 1) ∧ p * ((n : ℝ) - 1) ≤ (n : ℝ) - 1 ∧
      ⌊p * ((n : ℝ) - 1)⌋₊ ≤ n - 1 := by
  have h1 : (1 : ℝ) ≤ (n : ℝ) := by exact_mod_cast hn
  have h0 : (0 : ℝ) ≤ (n : ℝ) - 1 := by linarith
  have hle : p * ((n : ℝ) - 1) ≤ (n : ℝ) - 1 := by nlinarith
  refine ⟨mul_nonneg hp0 h0, hle, ?_⟩
  have h2 : p * ((n : ℝ) - 1) ≤ ((n - 1 : ℕ) : ℝ) := by
    rw [Nat.cast_pred hn]; exact hle
  have h3 := Nat.floor_le_floor h2
  simpa using h3

theorem sorted_getD_bounds {s : List ℝ} (hsort : s.Sorted (· ≤ ·)) :
    ∀ z ∈ s, s.getD 0 0 ≤ z ∧ z ≤ s.getD (s.length - 1) 0 := by
  intro z hz
  obtain ⟨j, hj, rfl⟩ := List.getElem_of_mem hz
  have hn : 0 < s.length := by omega
  constructor
  · rw [List.getD_eq_get _ _ hn]
    have h := hsort.rel_get_of_le (a := ⟨0, hn⟩) (b := ⟨j, hj⟩)
      (by simp [Fin.mk_le_mk])
    simpa [List.get_eq_getElem] using h
  · rw [List.getD_eq_get _ _ (show s.length - 1 < s.length by omega)]
    have h := hsort.rel_get_of_le (a := ⟨j, hj⟩)
      (b := ⟨s.length - 1, by omega⟩) (by simp [Fin.mk_le_mk]; omega)
    simpa [List.get_eq_getElem] using h

theorem interp_between {s : List ℝ} (hsort : s.Sorted (· ≤ ·)) (hn : 0 < s.length)
    {h : ℝ} (hh0 : 0 ≤ h) (hhle : h ≤ (s.length : ℝ) - 1) :
    s.getD 0 0 ≤ s.getD ⌊h⌋₊ 0
        + (h - (⌊h⌋₊ : ℝ)) * (s.getD (⌊h⌋₊ + 1) (s.getD ⌊h⌋₊ 0) - s.getD ⌊h⌋₊ 0) ∧
      s.getD ⌊h⌋₊ 0
        + (h - (⌊h⌋₊ : ℝ)) * (s.getD (⌊h⌋₊ + 1) (s.getD ⌊h⌋₊ 0) - s.getD ⌊h⌋₊ 0)
      ≤ s.getD (s.length - 1) 0 := by
  have hile : ⌊h⌋₊ ≤ s.length - 1 := by
    have h2 : h ≤ ((s.length - 1 : ℕ) : ℝ) := by
      rw [Nat.cast_pred hn]; exact hhle
    have h3 := Nat.floor_le_floor h2
    simpa using h3
  have hilt : ⌊h⌋₊ < s.length := by omega
  have hf0 : (0 : ℝ) ≤ h - ⌊h⌋₊ := sub_nonneg.mpr (Nat.floor_le hh0)
  have hf1 : h - (⌊h⌋₊ : ℝ) ≤ 1 := by
    have h4 := Nat.lt_floor_add_one h
    push_cast at h4
    linarith
  have hmono : ∀ (j k : ℕ), j < s.length → k < s.length → j ≤ k →
      s.getD j 0 ≤ s.getD k 0 := by
    intro j k hj hk hjk
    rw [List.getD_eq_get _ _ hj, List.getD_eq_get _ _ hk]
    exact hsort.rel_get_of_le (by simpa [Fin.mk_le_mk] using hjk)
  have ha0 : s.getD 0 0 ≤ s.getD ⌊h⌋₊ 0 := hmono 0 _ hn hilt (Nat.zero_le _)
  have haM : s.getD ⌊h⌋₊ 0 ≤ s.getD (s.length - 1) 0 :=
    hmono _ _ hilt (by omega) hile
  by_cases hb : ⌊h⌋₊ + 1 < s.length
  · have hab : s.getD ⌊h⌋₊ 0 ≤ s.getD (⌊h⌋₊ + 1) (s.getD ⌊h⌋₊ 0) := by
      rw [List.getD_eq_get _ _ hb, List.getD_eq_get _ _ hilt]
      exact hsort.rel_get_of_le (by simp [Fin.mk_le_mk])
    have hbM : s.getD (⌊h⌋₊ + 1) (s.getD ⌊h⌋₊ 0) ≤ s.getD (s.length - 1) 0 := by
      rw [List.getD_eq_get _ _ hb,
        List.getD_eq_get _ _ (show s.length - 1 < s.length by omega)]
      exact hsort.rel_get_of_le (by simp [Fin.mk_le_mk]; omega)
    constructor
    · nlinarith [mul_nonneg hf0 (sub_nonneg.mpr hab)]
    · nlinarith [mul_nonneg (sub_nonneg.mpr hf1) (sub_nonneg.mpr hab)]
  · have hbv : s.getD (⌊h⌋₊ + 1) (s.getD ⌊h⌋₊ 0) = s.getD ⌊h⌋₊ 0 :=
      List.getD_eq_default _ _ (by omega)
    rw [hbv]
    constructor <;> nlinarith

theorem np_quantile_between {xs : List ℝ} {p : ℝ} (hne : xs ≠ []) (hp0 : 0 ≤ p)
    (hp1 : p ≤ 1) :
    ∃ m M, m ∈ xs ∧ M ∈ xs ∧ (∀ z ∈ xs, m ≤ z) ∧ (∀ z ∈ xs, z ≤ M) ∧
      m ≤ np_quantile xs p ∧ np_quantile xs p ≤ M := by
  have hsort : (xs.insertionSort (· ≤ ·)).Sorted (· ≤ ·) :=
    List.sorted_insertionSort _ xs
  have hperm := List.perm_insertionSort (· ≤ ·) xs
  have hn : 0 < (xs.insertionSort (· ≤ ·)).length := by
    rw [hperm.length_eq]; exact List.length_pos.mpr hne
  obtain ⟨hh0, hhle, _⟩ := floor_interp_bounds hn hp0 hp1
  obtain ⟨hlo, hhi⟩ := interp_between hsort hn hh0 hhle
  have hmem0 : (xs.insertionSort (· ≤ ·)).getD 0 0 ∈ xs := by
    rw [← hperm.mem_iff, List.getD_eq_get _ _ hn]
    exact List.get_mem _ _ _
  have hmemN : (xs.insertionSort (· ≤ ·)).getD
      ((xs.insertionSort (· ≤ ·)).length - 1) 0 ∈ xs := by
    rw [← hperm.mem_iff,
      List.getD_eq_get _ _ (show (xs.insertionSort (· ≤ ·)).length - 1
        < (xs.insertionSort (· ≤ ·)).length by omega)]
    exact List.get_mem _ _ _
  refine ⟨_, _, hmem0, hmemN, ?_, ?_, ?_, ?_⟩
  · intro z hz
    exact (sorted_getD_bounds hsort z (hperm.mem_iff.mpr hz)).1
  · intro z hz
    exact (sorted_getD_bounds hsort z (hperm.mem_iff.mpr hz)).2
  · simpa only [np_quantile] using hlo
  · simpa only [np_quantile] using hhi

theorem mean_le_of_forall_le {xs : List ℝ} {c : ℝ} (hne : xs ≠ [])
    (h : ∀ x ∈ xs, x ≤ c) : mean xs ≤ c := by
  have hn : (0 : ℝ) < xs.length := by
    exact_mod_cast List.length_pos.mpr hne
  rw [mean, div_le_iff hn]
  have hs := List.sum_le_card_nsmul xs c h
  simpa [nsmul_eq_mul, mul_comm] using hs

theorem cvar_le_quantile {xs : List ℝ} {p : ℝ} (hne : xs ≠ []) (hp0 : 0 ≤ p)
    (hp1 : p ≤ 1) :
    (xs.filter (fun x => decide (x ≤ np_quantile xs p)) ≠ []) ∧
      mean (xs.filter (fun x => decide (x ≤ np_quantile xs p)))
        ≤ np_quantile xs p := by
  obtain ⟨m, M, hm, hM, hmin, hmax, hmq, hqM⟩ := np_quantile_between hne hp0 hp1
  have hmem : m ∈ xs.filter (fun x => decide (x ≤ np_quantile xs p)) :=
    List.mem_filter.mpr ⟨hm, by simpa using hmq⟩
  have hne2 : xs.filter (fun x => decide (x ≤ np_quantile xs p)) ≠ [] :=
    List.ne_nil_of_mem hmem
  refine ⟨hne2, mean_le_of_forall_le hne2 ?_⟩
  intro x hx
  have h2 := (List.mem_filter.mp hx).2
  simpa using h2

theorem np_quantile_eq_type7 {xs : List ℝ} {p : ℝ} (hne : xs ≠ []) (hp0 : 0 ≤ p)
    (hp1 : p ≤ 1) : np_quantile xs p = quantile_type7 xs p := by
  have hn : 0 < (xs.insertionSort (· ≤ ·)).length := by
    rw [(List.perm_insertionSort (· ≤ ·) xs).length_eq]
    exact List.length_pos.mpr hne
  obtain ⟨hh0, hhle, hile⟩ := floor_interp_bounds hn hp0 hp1
  simp only [np_quantile, quantile_type7, order_statistic]
  set s := xs.insertionSort (· ≤ ·) with hs
  set h := p * ((s.length : ℝ) - 1) with hh
  set i := ⌊h⌋₊ with hi
  rw [min_eq_left hile]
  by_cases hb : i + 1 < s.length
  · rw [min_eq_left (by omega)]
    have hbv : s.getD (i + 1) (s.getD i 0) = s.getD (i + 1) 0 := by
      rw [List.getD_eq_get _ _ hb, List.getD_eq_get _ _ hb]
    rw [hbv]; ring
  · have hmin2 : min (i + 1) (s.length - 1) = i := by omega
    rw [hmin2]
    have hbv : s.getD (i + 1) (s.getD i 0) = s.getD i 0 :=
      List.getD_eq_default _ _ (by omega)
    rw [hbv]; ring

theorem range_filterMap_window (w : ℕ) (hw : 1 ≤ w) (g : ℕ → ℝ) (n : ℕ) :
    (List.range n).filterMap (fun j => if w ≤ j + 1 then some (g j) else none)
      = (List.range (n + 1 - w)).map (fun i => g (i + (w - 1))) := by
  induction n with
  | zero =>
      have h0 : 0 + 1 - w = 0 := by omega
      simp [h0]
  | succ n ih =>
      rw [List.range_succ, List.filterMap_append, ih]
      by_cases hc : w ≤ n + 1
      · have h1 : n + 1 + 1 - w = (n + 1 - w) + 1 := by omega
        rw [h1, List.range_succ, List.map_append]
        have h2 : n + 1 - w + (w - 1) = n := by omega
        simp [List.filterMap_cons, hc, h2]
      · have h1 : n + 1 + 1 - w = 0 := by omega
        have h2 : n + 1 - w = 0 := by omega
        rw [h1, h2]
        simp [List.filterMap_cons, hc]

theorem rolling_sum_eq_spec (w : ℕ) (hw : 1 ≤ w) (xs : List ℝ) :
    rolling_sum w xs = spec_rolling_sums w xs := by
  unfold rolling_sum spec_rolling_sums
  rw [range_filterMap_window w hw _ xs.length]
  refine List.map_congr_left ?_
  intro i _
  have h1 : i + (w - 1) + 1 = i + w := by omega
  rw [h1]
  have h3 : i + w - w = i := by omega
  rw [h3, List.drop_take]
  have h4 : i + w - i = w := by omega
  rw [h4]

theorem spec_rolling_sums_length (w : ℕ) (xs : List ℝ) :
    (spec_rolling_sums w xs).length = xs.length + 1 - w := by
  simp [spec_rolling_sums]

theorem one_sub_inv_le_log {x : ℝ} (hx : 0 < x) : 1 - 1 / x ≤ Real.log x := by
  have h := Real.log_le_sub_one_of_pos (inv_pos.mpr hx)
  rw [Real.log_inv] at h
  have h' : 1 - x⁻¹ ≤ Real.log x := by linarith
  simpa [one_div] using h'

theorem abs_log_sub_lt {x c eps : ℝ} (hx : 0 < x) (h1 : c - eps < 1 - 1 / x)
    (h2 : x - 1 < c + eps) : |Real.log x - c| < eps := by
  have hl := one_sub_inv_le_log hx
  have hu := Real.log_le_sub_one_of_pos hx
  rw [abs_lt]
  constructor <;> linarith

/- ------------------------------------------------------------------ -/
/- Claim theorems                                                      -/
/- ------------------------------------------------------------------ -/

/-- Claim C1: after a full walk-forward run, the expanded training sample
built by the loop equals the literal concatenation of the original train and
test series, element-for-element and in original order, and hence equals the
original series, for every input series and every split point. -/
theorem walk_forward_invariant (xs : List ℝ) (k : ℕ) :
    walk_forward_expand (xs.take k) (xs.drop k) = xs.take k ++ xs.drop k ∧
    walk_forward_expand (xs.take k) (xs.drop k) = xs := by
  have h := walk_forward_expand_eq_append (xs.take k) (xs.drop k)
  exact ⟨h, h.trans (List.take_append_drop k xs)⟩

/-- Claim C3: the forecasted VaR path is `exp((forecast_vol / 1000)·Φ⁻¹(0.05))`,
and 1000 is the same constant by which the rolling-sum log-returns were
scaled before fitting, so composing the VaR translation with the pre-fit
scaling inverts it exactly: it sends each value `x` to `exp(x·Φ⁻¹(0.05))`. -/
theorem forecast_var_scaling (ppf : ℝ → ℝ) (s : List ℝ) (v : ℝ) :
    forecasted_var ppf v = Real.exp (v / 1000 * ppf 0.05) ∧
    (garch_data s).map (forecasted_var ppf)
      = s.map (fun x => Real.exp (x * ppf 0.05)) := by
  refine ⟨rfl, ?_⟩
  simp only [garch_data, List.map_map]
  refine List.map_congr_left ?_
  intro x _
  simp only [Function.comp_apply, forecasted_var]
  congr 1
  ring

/-- Claim C2: for a price series with at least two strictly positive prices,
`get_log_returns` returns a series of length `len − 1` whose `i`-th row is
the log of the ratio of consecutive prices, `ln(price (i+1) / price i)`,
tagged with the earlier timestamp `timestamp i`; on the concrete series
[100, 105, 98, 102, 110] it yields the four values
ln(105/100), ln(98/105), ln(102/98), ln(110/102), which are within 1/200 of
0.04879, −0.06841, 0.04000 and 0.07554 respectively. -/
theorem log_returns_spec (df : List (ℕ × ℝ)) (h2 : 2 ≤ df.length)
    (hpos : ∀ r ∈ df, 0 < r.2) :
    ((get_log_returns df).length = df.length - 1 ∧
      ∀ i, i < df.length - 1 →
        (get_log_returns df).getD i (0, 0)
          = ((df.getD i (0, 0)).1,
              Real.log ((df.getD (i + 1) (0, 0)).2 / (df.getD i (0, 0)).2))) ∧
    (get_log_returns df0
        = [(0, Real.log (105 / 100)), (1, Real.log (98 / 105)),
            (2, Real.log (102 / 98)), (3, Real.log (110 / 102))] ∧
      |Real.log ((105:ℝ) / 100) - 0.04879| < 1 / 200 ∧
      |Real.log ((98:ℝ) / 105) - (-0.06841)| < 1 / 200 ∧
      |Real.log ((102:ℝ) / 98) - 0.04| < 1 / 200 ∧
      |Real.log ((110:ℝ) / 102) - 0.07554| < 1 / 200) := by
  refine ⟨⟨get_log_returns_length df, ?_⟩, rfl, ?_, ?_, ?_, ?_⟩
  · intro i hi
    have hlen := get_log_returns_length df
    have hi' : i < (get_log_returns df).length := by omega
    have hi1 : i < df.length := by omega
    have hi2 : i + 1 < df.length := by omega
    rw [List.getD_eq_getElem _ _ hi', List.getD_eq_getElem _ _ hi1,
        List.getD_eq_getElem _ _ hi2]
    simp only [get_log_returns, List.getElem_zip, List.getElem_dropLast,
      List.getElem_map, List.getElem_zipWith, List.getElem_tail]
  · exact abs_log_sub_lt (by norm_num) (by norm_num) (by norm_num)
  · exact abs_log_sub_lt (by norm_num) (by norm_num) (by norm_num)
  · exact abs_log_sub_lt (by norm_num) (by norm_num) (by norm_num)
  · exact abs_log_sub_lt (by norm_num) (by norm_num) (by norm_num)

/-- Witness for C2 at the concrete series df0 itself. -/
theorem log_returns_spec_witness :
    2 ≤ df0.length ∧ (∀ r ∈ df0, 0 < r.2) ∧
    (((get_log_returns df0).length = df0.length - 1 ∧
      ∀ i, i < df0.length - 1 →
        (get_log_returns df0).getD i (0, 0)
          = ((df0.getD i (0, 0)).1,
              Real.log ((df0.getD (i + 1) (0, 0)).2 / (df0.getD i (0, 0)).2))) ∧
    (get_log_returns df0
        = [(0, Real.log (105 / 100)), (1, Real.log (98 / 105)),
            (2, Real.log (102 / 98)), (3, Real.log (110 / 102))] ∧
      |Real.log ((105:ℝ) / 100) - 0.04879| < 1 / 200 ∧
      |Real.log ((98:ℝ) / 105) - (-0.06841)| < 1 / 200 ∧
      |Real.log ((102:ℝ) / 98) - 0.04| < 1 / 200 ∧
      |Real.log ((110:ℝ) / 102) - 0.07554| < 1 / 200)) :=
  ⟨by norm_num [df0], by intro r hr; fin_cases hr <;> norm_num,
    log_returns_spec df0 (by norm_num [df0])
      (by intro r hr; fin_cases hr <;> norm_num)⟩

/-- Claim C5 (as stated, over the abstract normal CDF Φ): for positive spot,
strike, volatility and expiry and nonnegative rate, the source call pricer
returns exactly the spec's Black–Scholes call price. -/
theorem call_price_eq_spec (Φ : ℝ → ℝ) (S0 K σ r T : ℝ)
    (hS : 0 < S0) (hK : 0 < K) (hσ : 0 < σ) (hr : 0 ≤ r) (hT : 0 < T) :
    call_black_scholes Φ S0 K σ r T = bs_call_spec Φ S0 K σ r T := by
  simp only [call_black_scholes, bs_call_spec]
  have h : 1 / (σ * Real.sqrt T) * (Real.log (S0 / K) + T * (r + 0.5 * σ ^ 2))
      = (Real.log (S0 / K) + (r + 0.5 * σ ^ 2) * T) / (σ * Real.sqrt T) := by
    ring
  rw [h]

/-- Witness for C5 at Φ = const 1/2, S0 = 100, K = 90, σ = 1, r = 0, T = 1. -/
theorem call_price_eq_spec_witness :
    (0:ℝ) < 100 ∧ (0:ℝ) < 90 ∧ (0:ℝ) < 1 ∧ (0:ℝ) ≤ 0 ∧
    call_black_scholes (fun _ => 1/2) 100 90 1 0 1
      = bs_call_spec (fun _ => 1/2) 100 90 1 0 1 :=
  ⟨by norm_num, by norm_num, by norm_num, le_refl 0,
    call_price_eq_spec (fun _ => 1/2) 100 90 1 0 1 (by norm_num) (by norm_num)
      (by norm_num) (le_refl 0) (by norm_num)⟩

/-- Claim C6: put–call parity, `call − put = S0 − K·e^(−rT)`, for all
positive parameters (the put being defined from the call by parity). -/
theorem put_call_parity (Φ : ℝ → ℝ) (S0 K σ r T : ℝ)
    (hS : 0 < S0) (hK : 0 < K) (hσ : 0 < σ) (hr : 0 < r) (hT : 0 < T) :
    call_black_scholes Φ S0 K σ r T - put_black_scholes Φ S0 K σ r T
      = S0 - K * Real.exp (-r * T) := by
  simp only [put_black_scholes]
  ring

/-- Witness for C6 at Φ = const 1/2, S0 = 100, K = 90, σ = 1, r = 1, T = 1. -/
theorem put_call_parity_witness :
    (0:ℝ) < 100 ∧ (0:ℝ) < 90 ∧ (0:ℝ) < 1 ∧
    call_black_scholes (fun _ => 1/2) 100 90 1 1 1
        - put_black_scholes (fun _ => 1/2) 100 90 1 1 1
      = 100 - 90 * Real.exp (-1 * 1) :=
  ⟨by norm_num, by norm_num, by norm_num,
    put_call_parity (fun _ => 1/2) 100 90 1 1 1 (by norm_num) (by norm_num)
      (by norm_num) (by norm_num) (by norm_num)⟩

/-- Claim C8 counterexample: called with T = 0 (spot 100, strike 90, σ = 1,
r = 0, CDF the constant 1/2), the pricer returns the numeric value
`Except.ok 5` — it does not fail with InvalidParameterError. -/
theorem bs_T0_no_error :
    call_black_scholes_run (fun _ => 1/2) 100 90 1 0 0 = Except.ok 5 := by
  simp only [call_black_scholes_run, call_black_scholes, Real.sqrt_zero,
    mul_zero, div_zero, zero_mul, sub_zero, neg_zero, Real.exp_zero, mul_one,
    Except.ok.injEq]
  norm_num

/-- Claim C8 amended: `call_black_scholes` performs no parameter validation
and never raises; at T = 0 every run returns normally with the value
`(S0 − K)·Φ(0)` (under real division semantics for the 1/(σ·√T) factor). -/
theorem bs_T0_total (Φ : ℝ → ℝ) (S0 K σ r : ℝ) :
    call_black_scholes_run Φ S0 K σ r 0 = Except.ok ((S0 - K) * Φ 0) := by
  simp only [call_black_scholes_run, call_black_scholes, Real.sqrt_zero,
    mul_zero, div_zero, zero_mul, sub_zero, neg_zero, Real.exp_zero, mul_one,
    Except.ok.injEq]
  ring

/-- Claim C9 counterexample: a one-point price series yields `Except.ok []`
(an empty log-return series), not InsufficientDataError; a series containing
a non-positive price yields a normal return with a junk log value, not
InvalidDataError. -/
theorem log_returns_no_error :
    get_log_returns_run [((0:ℕ), (100:ℝ))] = Except.ok [] ∧
    get_log_returns_run [((0:ℕ), (-1:ℝ)), (1, 1)]
      = Except.ok [(0, Real.log (1 / (-1:ℝ)))] := by
  constructor <;> rfl

/-- Claim C9 amended: `get_log_returns` validates nothing and never raises —
every run returns normally, and the returned series always has length
`len(df) − 1` (truncated at zero), so undersized or non-positive input is
processed silently rather than rejected. -/
theorem log_returns_total (df : List (ℕ × ℝ)) :
    get_log_returns_run df = Except.ok (get_log_returns df) ∧
    (get_log_returns df).length = df.length - 1 :=
  ⟨rfl, get_log_returns_length df⟩

/-- Claim C4: with a nonempty rolling-sum series (window `w ≥ 1` not larger
than the log-return sample) and `p ∈ (0,1)`, the historical estimator's
rolling sums are exactly the trailing-window-`w` sums (the undefined leading
positions dropped), of length `len − w + 1`; its `var` is the type-7
linearly interpolated empirical `p`-quantile of those sums, and its `cvar`
is the mean of all rolling-sum values at most `var`. -/
theorem hist_var_cvar_spec (df : List (ℕ × ℝ)) (w : ℕ) (p : ℝ)
    (hw : 1 ≤ w) (hwn : w ≤ (log_return_values df).length)
    (hp0 : 0 < p) (hp1 : p < 1) :
    rolling_sum w (log_return_values df)
        = spec_rolling_sums w (log_return_values df) ∧
    (spec_rolling_sums w (log_return_values df)).length
        = (log_return_values df).length - w + 1 ∧
    (get_var_cvar df w p).1
        = quantile_type7 (spec_rolling_sums w (log_return_values df)) p ∧
    (get_var_cvar df w p).2
        = mean ((spec_rolling_sums w (log_return_values df)).filter
            (fun x => decide
              (x ≤ quantile_type7 (spec_rolling_sums w (log_return_values df)) p))) := by
  have heq := rolling_sum_eq_spec w hw (log_return_values df)
  have hlen : (spec_rolling_sums w (log_return_values df)).length
      = (log_return_values df).length - w + 1 := by
    rw [spec_rolling_sums_length]; omega
  have hne : spec_rolling_sums w (log_return_values df) ≠ [] :=
    List.length_pos.mp (by rw [hlen]; omega)
  have hq : np_quantile (spec_rolling_sums w (log_return_values df)) p
      = quantile_type7 (spec_rolling_sums w (log_return_values df)) p :=
    np_quantile_eq_type7 hne hp0.le hp1.le
  refine ⟨heq, hlen, ?_, ?_⟩
  · show np_quantile (rolling_sum w (log_return_values df)) p = _
    rw [heq, hq]
  · show mean ((rolling_sum w (log_return_values df)).filter
        (fun x => decide
          (x ≤ np_quantile (rolling_sum w (log_return_values df)) p))) = _
    rw [heq, hq]

/-- Witness for C4 at the concrete series df0, window 2, p = 1/4. -/
theorem hist_var_cvar_spec_witness :
    1 ≤ 2 ∧ 2 ≤ (log_return_values df0).length ∧ (0:ℝ) < 1/4 ∧ (1/4:ℝ) < 1 ∧
    (rolling_sum 2 (log_return_values df0)
        = spec_rolling_sums 2 (log_return_values df0) ∧
      (spec_rolling_sums 2 (log_return_values df0)).length
        = (log_return_values df0).length - 2 + 1 ∧
      (get_var_cvar df0 2 (1/4)).1
        = quantile_type7 (spec_rolling_sums 2 (log_return_values df0)) (1/4) ∧
      (get_var_cvar df0 2 (1/4)).2
        = mean ((spec_rolling_sums 2 (log_return_values df0)).filter
            (fun x => decide
              (x ≤ quantile_type7 (spec_rolling_sums 2 (log_return_values df0)) (1/4))))) :=
  ⟨by norm_num,
    by simp [log_return_values, get_log_returns_length, df0],
    by norm_num, by norm_num,
    hist_var_cvar_spec df0 2 (1/4) (by norm_num)
      (by simp [log_return_values, get_log_returns_length, df0])
      (by norm_num) (by norm_num)⟩

/-- Claim C7: for a nonempty rolling-sum sample and a nonempty simulation
batch, at confidence level 0 < p < 1/2, the reported risk estimates satisfy
cvar ≤ var, both for the historical estimator and for the Monte Carlo
estimator. -/
theorem cvar_le_var (df : List (ℕ × ℝ)) (w : ℕ) (p : ℝ)
    (samples : List (List ℝ))
    (hs : rolling_sum w (log_return_values df) ≠ [])
    (hsam : samples ≠ []) (hp0 : 0 < p) (hp : p < 1 / 2) :
    (get_var_cvar df w p).2 ≤ (get_var_cvar df w p).1 ∧
    (MonteCarloVar samples p).2.2 ≤ (MonteCarloVar samples p).2.1 := by
  constructor
  · have h := cvar_le_quantile hs hp0.le (show p ≤ 1 by linarith)
    exact h.2
  · have hsum : samples.map List.sum ≠ [] := by
      simpa [List.map_eq_nil_iff] using hsam
    have h := cvar_le_quantile hsum hp0.le (show p ≤ 1 by linarith)
    exact h.2

/-- Witness for C7 at the two-point series df1, window 1, one simulation of
one period, p = 1/4. -/
theorem cvar_le_var_witness :
    rolling_sum 1 (log_return_values df1) ≠ [] ∧
    ([[(0:ℝ)]] : List (List ℝ)) ≠ [] ∧ (0:ℝ) < 1/4 ∧ (1/4:ℝ) < 1/2 ∧
    ((get_var_cvar df1 1 (1/4)).2 ≤ (get_var_cvar df1 1 (1/4)).1 ∧
      (MonteCarloVar [[(0:ℝ)]] (1/4)).2.2 ≤ (MonteCarloVar [[(0:ℝ)]] (1/4)).2.1) :=
  ⟨by simp [rolling_sum, log_return_values, get_log_returns, df1],
    by simp, by norm_num, by norm_num,
    cvar_le_var df1 1 (1/4) [[(0:ℝ)]]
      (by simp [rolling_sum, log_return_values, get_log_returns, df1])
      (by simp) (by norm_num) (by norm_num)⟩

/-- Claim C10: for every nonempty sample and p ∈ [0,1], the interpolated
empirical quantile computed by `get_var_cvar` and by `MonteCarloVar` lies
between the sample minimum and maximum, the set of values at most `var`
contains the sample minimum, and hence the CVaR mean is taken over a
nonempty set — the degenerate no-qualifying-observations branch is
unreachable. -/
theorem quantile_within_sample (df : List (ℕ × ℝ)) (w : ℕ) (p : ℝ)
    (samples : List (List ℝ))
    (hs : rolling_sum w (log_return_values df) ≠ [])
    (hsam : samples ≠ []) (hp0 : 0 ≤ p) (hp1 : p ≤ 1) :
    quantile_safety (rolling_sum w (log_return_values df))
        (get_var_cvar df w p).1 ∧
    quantile_safety (samples.map List.sum) (MonteCarloVar samples p).2.1 := by
  constructor
  · obtain ⟨m, M, hm, hM, hmin, hmax, hmq, hqM⟩ := np_quantile_between hs hp0 hp1
    have hvar : (get_var_cvar df w p).1
        = np_quantile (rolling_sum w (log_return_values df)) p := rfl
    rw [hvar]
    exact ⟨⟨m, hm, hmin, hmq⟩, ⟨M, hM, hmax, hqM⟩,
      List.ne_nil_of_mem (List.mem_filter.mpr ⟨hm, by simpa using hmq⟩)⟩
  · have hsum : samples.map List.sum ≠ [] := by
      simpa [List.map_eq_nil_iff] using hsam
    obtain ⟨m, M, hm, hM, hmin, hmax, hmq, hqM⟩ :=
      np_quantile_between hsum hp0 hp1
    have hvar : (MonteCarloVar samples p).2.1
        = np_quantile (samples.map List.sum) p := rfl
    rw [hvar]
    exact ⟨⟨m, hm, hmin, hmq⟩, ⟨M, hM, hmax, hqM⟩,
      List.ne_nil_of_mem (List.mem_filter.mpr ⟨hm, by simpa using hmq⟩)⟩

/-- Witness for C10 at the two-point series df1, window 1, one simulation,
p = 1/2. -/
theorem quantile_within_sample_witness :
    rolling_sum 1 (log_return_values df1) ≠ [] ∧
    ([[(0:ℝ)]] : List (List ℝ)) ≠ [] ∧ (0:ℝ) ≤ 1/2 ∧ (1/2:ℝ) ≤ 1 ∧
    (quantile_safety (rolling_sum 1 (log_return_values df1))
        (get_var_cvar df1 1 (1/2)).1 ∧
      quantile_safety ([[(0:ℝ)]].map List.sum)
        (MonteCarloVar [[(0:ℝ)]] (1/2)).2.1) :=
  ⟨by simp [rolling_sum, log_return_values, get_log_returns, df1],
    by simp, by norm_num, by norm_num,
    quantile_within_sample df1 1 (1/2) [[(0:ℝ)]]
      (by simp [rolling_sum, log_return_values, get_log_returns, df1])
      (by simp) (by norm_num) (by norm_num)⟩

end App
